import Mathlib

/-!
Shallow embedding of the ContainerQueryLibrary header
(src/ContainerQueryLibrary/ContainerQueryLibrary.h, namespace cql).

C++ sequence containers are modelled as Lean `List`s.  Where the library's
compile-time dispatch on the container template (`IsVector` / `IsList`)
matters, a container is modelled as a `Container`: a list of elements
tagged with a `ContainerKind` (`vector`, `list`, or `other` for any
container template that is neither `std::vector` nor `std::list`).
`std::map` values are modelled as association lists sorted strictly by key,
which is the observable iteration/value semantics of `std::map`.
All functions are pure: an in-place C++ mutation is modelled as a function
from the pre-state sequence to the post-state sequence.
-/

namespace cql

/-- ContainerKind models the compile-time identity of the container
template argument: `std::vector`, `std::list`, or anything else. -/
inductive ContainerKind : Type where
  | vector : ContainerKind
  | list : ContainerKind
  | other : ContainerKind
deriving DecidableEq, Repr

/-- Container models a C++ sequence container value: its template kind
together with its sequence of elements. -/
structure Container (α : Type) : Type where
  kind : ContainerKind
  elems : List α
deriving DecidableEq, Repr

/-- IsVector models the trait `cql::IsVector` (header lines 16-19):
true exactly on `std::vector` instantiations. -/
def IsVector : ContainerKind → Bool
  | ContainerKind.vector => true
  | _ => false

/-- IsList models the trait `cql::IsList` (header lines 21-24):
true exactly on `std::list` instantiations. -/
def IsList : ContainerKind → Bool
  | ContainerKind.list => true
  | _ => false

/-- Select models `cql::Select` (header lines 40-50): it loops over the
container pushing `selector element` onto a `std::list` result, so the
result kind is `std::list` whatever the input kind. -/
def Select {α β : Type} (container : Container α) (selector : α → β) : Container β :=
  { kind := ContainerKind.list
    elems := container.elems.foldl (fun result element => result.concat (selector element)) [] }

/-- Where models `cql::Where` (header lines 64-74): it loops over the
container pushing back the elements satisfying the predicate. -/
def Where {α : Type} (container : List α) (predicate : α → Bool) : List α :=
  container.foldl (fun result element => if predicate element then result.concat element else result) []

/-- Update models the unconditional `cql::Update` (header lines 84-91):
every element is replaced in place by `setFunc` of it. -/
def Update {α : Type} (container : List α) (setFunc : α → α) : List α :=
  container.map setFunc

/-- UpdateIf models the predicated `cql::Update` overload (header lines
102-110): elements satisfying the predicate are replaced in place. -/
def UpdateIf {α : Type} (container : List α) (predicate : α → Bool) (setFunc : α → α) : List α :=
  container.map (fun element => if predicate element then setFunc element else element)

/-- Delete models `cql::Delete` (header lines 120-124), the
erase(remove_if) idiom: `std::remove_if` moves every element the
predicate rejects to the front, preserving their relative order, and
`erase` truncates the rest; the post-state sequence is the in-order
sequence of elements that fail the predicate. -/
def Delete {α : Type} (container : List α) (predicate : α → Bool) : List α :=
  container.foldl (fun result element => if predicate element then result else result.concat element) []

/-- insertComp inserts an element into a list sorted by the strict
comparator `comp`, before the first element it compares below. -/
def insertComp {α : Type} (comp : α → α → Bool) (x : α) : List α → List α
  | [] => [x]
  | y :: ys => if comp x y then x :: y :: ys else y :: insertComp comp x ys

/-- sortComp sorts a list by the strict comparator `comp` (insertion
sort).  It models the contract shared by `std::sort` and
`std::list::sort`: the result is a permutation of the input that is
ordered by the comparator.  For a comparator that decides a strict
linear order on element values the ordered permutation is unique, so
this model is exact for the uses in this file. -/
def sortComp {α : Type} (comp : α → α → Bool) : List α → List α
  | [] => []
  | x :: xs => insertComp comp x (sortComp comp xs)

/-- OrderBy models `cql::OrderBy` (header lines 138-149): sort with the
given comparator when the container kind is recognized as vector
(first `if constexpr`) or list (second `if constexpr`); a container of
any other kind falls through both branches unchanged. -/
def OrderBy {α : Type} (container : Container α) (func : α → α → Bool) : Container α :=
  let c1 := if IsVector container.kind
    then { container with elems := sortComp func container.elems } else container
  if IsList c1.kind then { c1 with elems := sortComp func c1.elems } else c1

/-- uniqueAdjFrom is the tail of the adjacent-deduplication scan: `x` is
the element most recently kept, and each following element equal to the
last kept one is dropped. -/
def uniqueAdjFrom {α : Type} [DecidableEq α] (x : α) : List α → List α
  | [] => []
  | y :: ys => if y = x then uniqueAdjFrom x ys else y :: uniqueAdjFrom y ys

/-- uniqueAdj models `std::unique` / `std::list::unique`: it collapses
each run of adjacent equal elements to its first element. -/
def uniqueAdj {α : Type} [DecidableEq α] : List α → List α
  | [] => []
  | x :: xs => x :: uniqueAdjFrom x xs

/-- ltComp is the default `operator<` comparator used by the sorts
inside `cql::Distinct`. -/
def ltComp {α : Type} [LinearOrder α] (a b : α) : Bool := decide (a < b)

/-- Distinct models `cql::Distinct` (header lines 159-174): copy the
container; if the kind is vector, `std::sort` it with `operator<` then
erase the `std::unique` tail; if the kind is list, `list::sort` then
`list::unique`; any other kind is returned as the unmodified copy. -/
def Distinct {α : Type} [LinearOrder α] (container : Container α) : Container α :=
  let result := container
  let result := if IsVector result.kind
    then { result with elems := uniqueAdj (sortComp ltComp result.elems) } else result
  if IsList result.kind
    then { result with elems := uniqueAdj (sortComp ltComp result.elems) } else result

/-- mapPush models `result[key].push_back(elem)` on a
`std::map<K, Container>` represented as an association list strictly
sorted by key: `operator[]` default-inserts an empty bucket at the key's
ordered position when absent, and the element is appended to the bucket. -/
def mapPush {κ α : Type} [LinearOrder κ] (m : List (κ × List α)) (k : κ) (e : α) :
    List (κ × List α) :=
  match m with
  | [] => [(k, [e])]
  | (k1, v) :: rest =>
    if k < k1 then (k, [e]) :: (k1, v) :: rest
    else if k = k1 then (k1, v.concat e) :: rest
    else (k1, v) :: mapPush rest k e

/-- GroupBy models `cql::GroupBy` (header lines 192-205): fold over the
container pushing each element onto the bucket of its grouping key in a
`std::map`. -/
def GroupBy {κ α : Type} [LinearOrder κ] (container : List α) (groupingMemberFunc : α → κ) :
    List (κ × List α) :=
  container.foldl (fun result elem => mapPush result (groupingMemberFunc elem) elem) []

/-- keys lists the keys of an association list in order. -/
def keys {κ ν : Type} (m : List (κ × ν)) : List κ :=
  m.map Prod.fst

/-- flattenBuckets concatenates the buckets of a grouping map in key
order: the sequence of all grouped elements. -/
def flattenBuckets {κ α : Type} (m : List (κ × List α)) : List α :=
  m.foldr (fun kv acc => kv.2 ++ acc) []

/-- lookupKV models `std::map::find`: the value at the first (for a
sorted map, only) entry with the given key, if any. -/
def lookupKV {κ ν : Type} [DecidableEq κ] (m : List (κ × ν)) (k : κ) : Option ν :=
  match m with
  | [] => none
  | (k1, v) :: rest => if k = k1 then some v else lookupKV rest k

/-- findBucket reads a bucket out of a grouping map, returning the empty
bucket when the key is absent (the value `operator[]` would observe). -/
def findBucket {κ α : Type} [DecidableEq κ] (m : List (κ × List α)) (k : κ) : List α :=
  match m with
  | [] => []
  | (k1, v) :: rest => if k = k1 then v else findBucket rest k

/-- mapSet models `result[k] = v` on a sorted `std::map`: default-insert
at the ordered position when the key is absent, then overwrite the value. -/
def mapSet {κ ν : Type} [LinearOrder κ] (m : List (κ × ν)) (k : κ) (v : ν) : List (κ × ν) :=
  match m with
  | [] => [(k, v)]
  | (k1, v1) :: rest =>
    if k < k1 then (k, v) :: (k1, v1) :: rest
    else if k = k1 then (k1, v) :: rest
    else (k1, v1) :: mapSet rest k v

/-- Join models `cql::Join` (header lines 224-249): group both inputs by
their key functions, then for each entry of the first grouping whose key
the second grouping also holds, store the pair of buckets in the result
map. -/
def Join {κ α β : Type} [LinearOrder κ] (container1 : List α) (container2 : List β)
    (joiningMemberFunc1 : α → κ) (joiningMemberFunc2 : β → κ) :
    List (κ × (List α × List β)) :=
  let group1 := GroupBy container1 joiningMemberFunc1
  let group2 := GroupBy container2 joiningMemberFunc2
  group1.foldl
    (fun result elem =>
      if elem.1 ∈ keys group2
        then mapSet result elem.1 (elem.2, findBucket group2 elem.1)
        else result)
    []

/-- WhereLazy models `cql::WhereLazy` (header lines 253-261): the full
stream of elements a consumer that exhausts the generator receives, in
production order. -/
def WhereLazy {α : Type} (container : List α) (predicate : α → Bool) : List α :=
  container.foldr (fun element rest => if predicate element then element :: rest else rest) []

/-- distinctLazyGo is the loop of `cql::DistinctLazy` with the `result`
accumulator (the elements pushed back so far) made explicit: an element
found in the accumulator is skipped, otherwise it is recorded and
yielded. -/
def distinctLazyGo {α : Type} [DecidableEq α] : List α → List α → List α
  | [], _ => []
  | x :: xs, seen =>
    if x ∈ seen then distinctLazyGo xs seen else x :: distinctLazyGo xs (seen.concat x)

/-- DistinctLazy models `cql::DistinctLazy` (header lines 263-275): the
full stream of elements a consumer that exhausts the generator receives,
in production order. -/
def DistinctLazy {α : Type} [DecidableEq α] (container : List α) : List α :=
  distinctLazyGo container []

/-- specFirstSeen is the specification-side description of
first-seen-unique streaming: keep each element and drop its later
duplicates.  It is written from the spec's words ("yields exactly the
first occurrence of each distinct value of S, in the original relative
order of those first occurrences"), to be compared with `DistinctLazy`. -/
def specFirstSeen {α : Type} [DecidableEq α] : List α → List α
  | [] => []
  | x :: xs => x :: specFirstSeen (xs.filter (fun y => decide (y ≠ x)))
termination_by l => l.length
decreasing_by
  simp only [List.length_cons]
  exact Nat.lt_succ_of_le (List.length_filter_le _ _)

/-! Loop-accumulator lemmas: the push_back folds compute filter / map. -/

theorem foldl_concat_if_eq {α : Type} (p : α → Bool) (l acc : List α) :
    l.foldl (fun r e => if p e then r.concat e else r) acc = acc ++ l.filter p := by
  induction l generalizing acc with
  | nil => simp
  | cons x xs ih =>
    rw [List.foldl_cons, List.filter_cons]
    by_cases h : p x = true
    · rw [if_pos h, if_pos h, ih]
      simp [List.concat_eq_append]
    · rw [if_neg h, if_neg h, ih]

theorem foldl_concat_ifnot_eq {α : Type} (p : α → Bool) (l acc : List α) :
    l.foldl (fun r e => if p e then r else r.concat e) acc
      = acc ++ l.filter (fun e => !(p e)) := by
  induction l generalizing acc with
  | nil => simp
  | cons x xs ih =>
    rw [List.foldl_cons, List.filter_cons]
    by_cases h : p x = true
    · rw [if_pos h, ih]
      simp [h]
    · rw [if_neg h, ih]
      simp [h, List.concat_eq_append]

theorem foldl_concat_map {α β : Type} (f : α → β) (l : List α) (acc : List β) :
    l.foldl (fun r e => r.concat (f e)) acc = acc ++ l.map f := by
  induction l generalizing acc with
  | nil => simp
  | cons x xs ih =>
    rw [List.foldl_cons, List.map_cons, ih]
    simp [List.concat_eq_append]

theorem where_eq_filter {α : Type} (container : List α) (predicate : α → Bool) :
    Where container predicate = container.filter predicate := by
  unfold Where
  rw [foldl_concat_if_eq, List.nil_append]

theorem delete_eq_filter {α : Type} (container : List α) (predicate : α → Bool) :
    Delete container predicate = container.filter (fun e => !(predicate e)) := by
  unfold Delete
  rw [foldl_concat_ifnot_eq, List.nil_append]

theorem select_elems_eq_map {α β : Type} (container : Container α) (selector : α → β) :
    (Select container selector).elems = container.elems.map selector := by
  show container.elems.foldl (fun r e => r.concat (selector e)) [] = container.elems.map selector
  rw [foldl_concat_map, List.nil_append]

/-- C1: every element of `Where S P` satisfies P; every element of S
satisfying P appears in `Where S P`; the output is a sublist of S, so
its elements keep their relative order from S; and its length is at
most the length of S. -/
theorem C1_where_spec {α : Type} (S : List α) (P : α → Bool) :
    (∀ e ∈ Where S P, P e = true) ∧
    (∀ e ∈ S, P e = true → e ∈ Where S P) ∧
    List.Sublist (Where S P) S ∧
    (Where S P).length ≤ S.length := by
  rw [where_eq_filter]
  exact ⟨fun e he => List.of_mem_filter he,
    fun e he hp => List.mem_filter.mpr ⟨he, hp⟩,
    List.filter_sublist S,
    List.length_filter_le P S⟩

/-- C8: `Delete S P` keeps exactly the elements failing P, in their
original relative order (it is the sublist of S of elements failing P),
and filtering the result again with P yields the empty sequence. -/
theorem C8_delete_spec {α : Type} (S : List α) (P : α → Bool) :
    Delete S P = S.filter (fun e => !(P e)) ∧
    (∀ e ∈ Delete S P, P e = false) ∧
    List.Sublist (Delete S P) S ∧
    Where (Delete S P) P = [] := by
  refine ⟨delete_eq_filter S P, ?_, ?_, ?_⟩
  · intro e he
    rw [delete_eq_filter] at he
    simpa using List.of_mem_filter he
  · rw [delete_eq_filter]
    exact List.filter_sublist S
  · rw [where_eq_filter, delete_eq_filter, List.filter_filter]
    apply List.filter_eq_nil_iff.mpr
    intro a _
    cases h : P a <;> simp [h]

/-- C10: `Select` always returns a container of list kind, whatever the
input kind (and its value does not depend on the input kind at all); its
elements are exactly the selector applied to each input element in input
order. -/
theorem C10_select_spec {α β : Type} (c : Container α) (f : α → β) (k : ContainerKind) :
    (Select c f).kind = ContainerKind.list ∧
    (Select c f).elems = c.elems.map f ∧
    Select { c with kind := k } f = Select c f :=
  ⟨rfl, select_elems_eq_map c f, rfl⟩

/-- C7: a container whose kind the compile-time dispatch recognizes as
neither vector nor list passes through `OrderBy` unchanged: both sort
branches are skipped and no error is raised. -/
theorem C7_orderBy_noop {α : Type} (c : Container α) (cmp : α → α → Bool)
    (h1 : IsVector c.kind = false) (h2 : IsList c.kind = false) :
    OrderBy c cmp = c := by
  unfold OrderBy
  simp [h1, h2]

/-- C7 witness: `OrderBy` at a concrete unsorted container of
unrecognized kind returns it unchanged. -/
theorem C7_orderBy_noop_witness :
    IsVector (Container.mk ContainerKind.other [3, 1, 2]).kind = false ∧
    IsList (Container.mk ContainerKind.other [3, 1, 2]).kind = false ∧
    OrderBy (Container.mk ContainerKind.other [3, 1, 2]) (fun a b : Nat => decide (a < b))
      = Container.mk ContainerKind.other [3, 1, 2] :=
  ⟨rfl, rfl, C7_orderBy_noop _ _ rfl rfl⟩

/-! Lemmas about the comparator sort used by OrderBy and Distinct. -/

theorem insertComp_perm {α : Type} (comp : α → α → Bool) (x : α) (l : List α) :
    (insertComp comp x l).Perm (x :: l) := by
  induction l with
  | nil => exact List.Perm.refl _
  | cons y ys ih =>
    unfold insertComp
    by_cases h : comp x y = true
    · rw [if_pos h]
    · rw [if_neg h]
      exact (ih.cons y).trans (List.Perm.swap x y ys)

theorem sortComp_perm {α : Type} (comp : α → α → Bool) (l : List α) :
    (sortComp comp l).Perm l := by
  induction l with
  | nil => exact List.Perm.refl _
  | cons x xs ih => exact (insertComp_perm comp x _).trans (ih.cons x)

theorem insertComp_sorted {α : Type} [LinearOrder α] (x : α) (l : List α)
    (h : List.Sorted (· ≤ ·) l) : List.Sorted (· ≤ ·) (insertComp ltComp x l) := by
  induction l with
  | nil => simp [insertComp]
  | cons y ys ih =>
    unfold insertComp
    by_cases hxy : ltComp x y = true
    · rw [if_pos hxy]
      have hx : x < y := by simpa [ltComp] using hxy
      rw [List.sorted_cons]
      refine ⟨?_, h⟩
      intro b hb
      rcases List.mem_cons.mp hb with rfl | hb
      · exact le_of_lt hx
      · exact le_trans (le_of_lt hx) ((List.sorted_cons.mp h).1 b hb)
    · rw [if_neg hxy]
      have hyx : y ≤ x := by
        have hnlt : ¬x < y := by simpa [ltComp] using hxy
        exact le_of_not_lt hnlt
      rw [List.sorted_cons] at h ⊢
      refine ⟨?_, ih h.2⟩
      intro b hb
      have hb2 : b = x ∨ b ∈ ys := by
        simpa using (insertComp_perm ltComp x ys).mem_iff.mp hb
      rcases hb2 with rfl | hb2
      · exact hyx
      · exact h.1 b hb2

theorem sortComp_sorted {α : Type} [LinearOrder α] (l : List α) :
    List.Sorted (· ≤ ·) (sortComp ltComp l) := by
  induction l with
  | nil => simp [sortComp]
  | cons x xs ih => exact insertComp_sorted x _ ih

theorem sortComp_eq_of_sorted {α : Type} [LinearOrder α] (l : List α)
    (h : List.Sorted (· ≤ ·) l) : sortComp ltComp l = l :=
  List.eq_of_perm_of_sorted (sortComp_perm ltComp l) (sortComp_sorted l) h

theorem sortComp_eq_of_perm {α : Type} [LinearOrder α] {l1 l2 : List α}
    (h : l1.Perm l2) : sortComp ltComp l1 = sortComp ltComp l2 :=
  List.eq_of_perm_of_sorted
    ((sortComp_perm ltComp l1).trans (h.trans (sortComp_perm ltComp l2).symm))
    (sortComp_sorted l1) (sortComp_sorted l2)

/-! Lemmas about adjacent deduplication. -/

theorem uniqueAdjFrom_sublist {α : Type} [DecidableEq α] (x : α) (l : List α) :
    List.Sublist (uniqueAdjFrom x l) l := by
  induction l generalizing x with
  | nil => exact List.Sublist.refl _
  | cons y ys ih =>
    unfold uniqueAdjFrom
    by_cases h : y = x
    · rw [if_pos h]
      exact (ih x).trans (List.sublist_cons_self y ys)
    · rw [if_neg h]
      exact (ih y).cons₂ y

theorem mem_uniqueAdjFrom_or {α : Type} [DecidableEq α] (x z : α) (l : List α)
    (hz : z ∈ l) : z ∈ uniqueAdjFrom x l ∨ z = x := by
  induction l generalizing x with
  | nil => cases hz
  | cons y ys ih =>
    unfold uniqueAdjFrom
    by_cases h : y = x
    · rw [if_pos h]
      rcases List.mem_cons.mp hz with rfl | hz2
      · exact Or.inr h
      · exact ih x hz2
    · rw [if_neg h]
      rcases List.mem_cons.mp hz with rfl | hz2
      · exact Or.inl (List.mem_cons_self z _)
      · rcases ih y hz2 with hm | rfl
        · exact Or.inl (List.mem_cons_of_mem y hm)
        · exact Or.inl (List.mem_cons_self z _)

theorem mem_uniqueAdj {α : Type} [DecidableEq α] (z : α) (l : List α) :
    z ∈ uniqueAdj l ↔ z ∈ l := by
  cases l with
  | nil => simp [uniqueAdj]
  | cons x xs =>
    unfold uniqueAdj
    constructor
    · intro h
      rcases List.mem_cons.mp h with rfl | h2
      · exact List.mem_cons_self z xs
      · exact List.mem_cons_of_mem x ((uniqueAdjFrom_sublist x xs).mem h2)
    · intro h
      rcases List.mem_cons.mp h with rfl | h2
      · exact List.mem_cons_self z _
      · rcases mem_uniqueAdjFrom_or x z xs h2 with hm | rfl
        · exact List.mem_cons_of_mem x hm
        · exact List.mem_cons_self z _

theorem uniqueAdjFrom_sorted {α : Type} [LinearOrder α] (x : α) (l : List α)
    (h : List.Sorted (· ≤ ·) (x :: l)) :
    List.Sorted (· < ·) (x :: uniqueAdjFrom x l) := by
  induction l generalizing x with
  | nil => simp [uniqueAdjFrom]
  | cons y ys ih =>
    rw [List.sorted_cons] at h
    have hys : List.Sorted (· ≤ ·) (y :: ys) := h.2
    unfold uniqueAdjFrom
    by_cases hyx : y = x
    · rw [if_pos hyx]
      apply ih x
      rw [List.sorted_cons]
      exact ⟨fun b hb => h.1 b (List.mem_cons_of_mem y hb), (List.sorted_cons.mp h.2).2⟩
    · rw [if_neg hyx]
      have hlt : x < y :=
        lt_of_le_of_ne (h.1 y (List.mem_cons_self y ys)) (Ne.symm hyx)
      have hrec : List.Sorted (· < ·) (y :: uniqueAdjFrom y ys) := ih y hys
      rw [List.sorted_cons]
      refine ⟨?_, hrec⟩
      intro b hb
      rcases List.mem_cons.mp hb with rfl | hb2
      · exact hlt
      · exact lt_trans hlt ((List.sorted_cons.mp hrec).1 b hb2)

theorem uniqueAdj_sorted {α : Type} [LinearOrder α] (l : List α)
    (h : List.Sorted (· ≤ ·) l) : List.Sorted (· < ·) (uniqueAdj l) := by
  cases l with
  | nil => simp [uniqueAdj]
  | cons x xs => exact uniqueAdjFrom_sorted x xs h

theorem uniqueAdjFrom_eq_of_sorted {α : Type} [LinearOrder α] (x : α) (l : List α)
    (h : List.Sorted (· < ·) (x :: l)) : uniqueAdjFrom x l = l := by
  induction l generalizing x with
  | nil => rfl
  | cons y ys ih =>
    rw [List.sorted_cons] at h
    have hyx : y ≠ x := by
      have := h.1 y (List.mem_cons_self y ys)
      exact fun he => absurd (he ▸ this) (lt_irrefl x)
    unfold uniqueAdjFrom
    rw [if_neg hyx, ih y h.2]

theorem uniqueAdj_eq_of_sorted {α : Type} [LinearOrder α] (l : List α)
    (h : List.Sorted (· < ·) l) : uniqueAdj l = l := by
  cases l with
  | nil => rfl
  | cons x xs =>
    show x :: uniqueAdjFrom x xs = x :: xs
    rw [uniqueAdjFrom_eq_of_sorted x xs h]

/-! Lemmas about the whole Distinct pipeline. -/

theorem distinct_eq_sortDedup {α : Type} [LinearOrder α] (c : Container α)
    (h : c.kind = ContainerKind.vector ∨ c.kind = ContainerKind.list) :
    Distinct c = Container.mk c.kind (uniqueAdj (sortComp ltComp c.elems)) := by
  cases c with
  | mk k l =>
    rcases h with h | h <;> (simp only at h; subst h; rfl)

theorem sortDedup_sorted {α : Type} [LinearOrder α] (l : List α) :
    List.Sorted (· < ·) (uniqueAdj (sortComp ltComp l)) :=
  uniqueAdj_sorted _ (sortComp_sorted l)

theorem mem_sortDedup {α : Type} [LinearOrder α] (z : α) (l : List α) :
    z ∈ uniqueAdj (sortComp ltComp l) ↔ z ∈ l := by
  rw [mem_uniqueAdj]
  exact (sortComp_perm ltComp l).mem_iff

theorem sortDedup_idem {α : Type} [LinearOrder α] (l : List α) :
    uniqueAdj (sortComp ltComp (uniqueAdj (sortComp ltComp l)))
      = uniqueAdj (sortComp ltComp l) := by
  have hlt : List.Sorted (· < ·) (uniqueAdj (sortComp ltComp l)) := sortDedup_sorted l
  have hle : List.Sorted (· ≤ ·) (uniqueAdj (sortComp ltComp l)) :=
    hlt.imp (fun hab => le_of_lt hab)
  rw [sortComp_eq_of_sorted _ hle, uniqueAdj_eq_of_sorted _ hlt]

/-- C9: `Distinct` is idempotent: applying it twice equals applying it
once, for containers of every kind (for vector and list kinds the second
sort-plus-unique pass leaves the sorted deduplicated sequence unchanged;
for any other kind both applications are the identity). -/
theorem C9_distinct_idempotent {α : Type} [LinearOrder α] (c : Container α) :
    Distinct (Distinct c) = Distinct c := by
  cases c with
  | mk k l =>
    cases k
    case vector => simp [Distinct, IsVector, IsList, sortDedup_idem]
    case list => simp [Distinct, IsVector, IsList, sortDedup_idem]
    case other => rfl

/-- C5: for vector-kind and list-kind containers, `Distinct` returns
each distinct value of the input exactly once, in strictly ascending
natural order, and its result depends only on the multiset of input
elements (it is invariant under reordering the input). -/
theorem C5_distinct_sorted {α : Type} [LinearOrder α] (c : Container α)
    (h : c.kind = ContainerKind.vector ∨ c.kind = ContainerKind.list) :
    (Distinct c).elems.Nodup ∧
    (∀ x, x ∈ (Distinct c).elems ↔ x ∈ c.elems) ∧
    (∀ x ∈ c.elems, (Distinct c).elems.count x = 1) ∧
    List.Sorted (· < ·) (Distinct c).elems ∧
    (∀ d : Container α, d.kind = c.kind → d.elems.Perm c.elems → Distinct d = Distinct c) := by
  rw [distinct_eq_sortDedup c h]
  have hsorted : List.Sorted (· < ·) (uniqueAdj (sortComp ltComp c.elems)) :=
    sortDedup_sorted c.elems
  have hnodup : (uniqueAdj (sortComp ltComp c.elems)).Nodup := hsorted.nodup
  refine ⟨hnodup, fun x => mem_sortDedup x c.elems, ?_, hsorted, ?_⟩
  · intro x hx
    exact List.count_eq_one_of_mem hnodup ((mem_sortDedup x c.elems).mpr hx)
  · intro d hkind hperm
    rw [distinct_eq_sortDedup d (hkind ▸ h), hkind, sortComp_eq_of_perm hperm]

/-- C5 witness: the claim instantiated at the test suite's vector
container, whose elements come back sorted ascending with duplicates
removed. -/
theorem C5_distinct_sorted_witness :
    ((Container.mk ContainerKind.vector ([11, 11, 2, 2, 3, 5, 6] : List ℕ)).kind
        = ContainerKind.vector ∨
      (Container.mk ContainerKind.vector ([11, 11, 2, 2, 3, 5, 6] : List ℕ)).kind
        = ContainerKind.list) ∧
    ((Distinct (Container.mk ContainerKind.vector ([11, 11, 2, 2, 3, 5, 6] : List ℕ))).elems.Nodup ∧
      (∀ x, x ∈ (Distinct (Container.mk ContainerKind.vector
          ([11, 11, 2, 2, 3, 5, 6] : List ℕ))).elems ↔
        x ∈ (Container.mk ContainerKind.vector ([11, 11, 2, 2, 3, 5, 6] : List ℕ)).elems) ∧
      (∀ x ∈ (Container.mk ContainerKind.vector ([11, 11, 2, 2, 3, 5, 6] : List ℕ)).elems,
        (Distinct (Container.mk ContainerKind.vector
          ([11, 11, 2, 2, 3, 5, 6] : List ℕ))).elems.count x = 1) ∧
      List.Sorted (· < ·)
        (Distinct (Container.mk ContainerKind.vector ([11, 11, 2, 2, 3, 5, 6] : List ℕ))).elems ∧
      (∀ d : Container ℕ,
        d.kind = (Container.mk ContainerKind.vector ([11, 11, 2, 2, 3, 5, 6] : List ℕ)).kind →
        d.elems.Perm (Container.mk ContainerKind.vector ([11, 11, 2, 2, 3, 5, 6] : List ℕ)).elems →
        Distinct d = Distinct (Container.mk ContainerKind.vector
          ([11, 11, 2, 2, 3, 5, 6] : List ℕ)))) :=
  ⟨Or.inl rfl, C5_distinct_sorted _ (Or.inl rfl)⟩

/-- C4 counterexample: on the vector `[11, 11, 2, 2, 3, 5, 6]` the
header's `Distinct` returns the sorted sequence `[2, 3, 5, 6, 11]`, not
the first-occurrence-ordered `[11, 2, 3, 5, 6]` the claim states. -/
theorem C4_distinct_counterexample :
    Distinct (Container.mk ContainerKind.vector ([11, 11, 2, 2, 3, 5, 6] : List ℕ))
      ≠ Container.mk ContainerKind.vector ([11, 2, 3, 5, 6] : List ℕ) := by
  decide

/-- C4 (amended): for every vector-kind container, `Distinct` contains
no two equal elements and every distinct value of the input exactly
once, but in ascending sorted order rather than first-occurrence order;
on `[11, 11, 2, 2, 3, 5, 6]` it returns `[2, 3, 5, 6, 11]`. -/
theorem C4_distinct_amended {α : Type} [LinearOrder α] (c : Container α)
    (h : c.kind = ContainerKind.vector) :
    (Distinct c).elems.Nodup ∧
    (∀ x, x ∈ (Distinct c).elems ↔ x ∈ c.elems) ∧
    List.Sorted (· < ·) (Distinct c).elems ∧
    Distinct (Container.mk ContainerKind.vector ([11, 11, 2, 2, 3, 5, 6] : List ℕ))
      = Container.mk ContainerKind.vector ([2, 3, 5, 6, 11] : List ℕ) := by
  rw [distinct_eq_sortDedup c (Or.inl h)]
  exact ⟨(sortDedup_sorted c.elems).nodup,
    fun x => mem_sortDedup x c.elems,
    sortDedup_sorted c.elems,
    by decide⟩

/-- C4 witness: the amended claim instantiated at the test suite's
vector container. -/
theorem C4_distinct_amended_witness :
    (Container.mk ContainerKind.vector ([11, 11, 2, 2, 3, 5, 6] : List ℕ)).kind
      = ContainerKind.vector ∧
    ((Distinct (Container.mk ContainerKind.vector ([11, 11, 2, 2, 3, 5, 6] : List ℕ))).elems.Nodup ∧
      (∀ x, x ∈ (Distinct (Container.mk ContainerKind.vector
          ([11, 11, 2, 2, 3, 5, 6] : List ℕ))).elems ↔
        x ∈ (Container.mk ContainerKind.vector ([11, 11, 2, 2, 3, 5, 6] : List ℕ)).elems) ∧
      List.Sorted (· < ·)
        (Distinct (Container.mk ContainerKind.vector ([11, 11, 2, 2, 3, 5, 6] : List ℕ))).elems ∧
      Distinct (Container.mk ContainerKind.vector ([11, 11, 2, 2, 3, 5, 6] : List ℕ))
        = Container.mk ContainerKind.vector ([2, 3, 5, 6, 11] : List ℕ)) :=
  ⟨rfl, C4_distinct_amended _ rfl⟩

/-! Lemmas about the sorted-map model and GroupBy. -/

theorem keys_nil {κ ν : Type} : keys ([] : List (κ × ν)) = [] := rfl

theorem keys_cons {κ ν : Type} (k : κ) (v : ν) (rest : List (κ × ν)) :
    keys ((k, v) :: rest) = k :: keys rest := rfl

theorem mem_keys_mapPush {κ α : Type} [LinearOrder κ] (m : List (κ × List α)) (k k0 : κ)
    (e : α) : k0 ∈ keys (mapPush m k e) ↔ k0 = k ∨ k0 ∈ keys m := by
  induction m with
  | nil => simp [mapPush, keys_cons, keys_nil]
  | cons kv rest ih =>
    obtain ⟨k1, v⟩ := kv
    unfold mapPush
    by_cases h1 : k < k1
    · rw [if_pos h1]
      simp only [keys_cons, List.mem_cons]
    · rw [if_neg h1]
      by_cases h2 : k = k1
      · rw [if_pos h2]
        subst h2
        simp only [keys_cons, List.mem_cons]
        tauto
      · rw [if_neg h2]
        simp only [keys_cons, List.mem_cons, ih]
        tauto

theorem sorted_keys_mapPush {κ α : Type} [LinearOrder κ] (m : List (κ × List α)) (k : κ)
    (e : α) (h : List.Sorted (· < ·) (keys m)) :
    List.Sorted (· < ·) (keys (mapPush m k e)) := by
  induction m with
  | nil => simp [mapPush, keys_cons, keys_nil]
  | cons kv rest ih =>
    obtain ⟨k1, v⟩ := kv
    rw [keys_cons, List.sorted_cons] at h
    unfold mapPush
    by_cases h1 : k < k1
    · rw [if_pos h1, keys_cons, keys_cons, List.sorted_cons]
      refine ⟨?_, List.sorted_cons.mpr h⟩
      intro b hb
      rcases List.mem_cons.mp hb with rfl | hb2
      · exact h1
      · exact lt_trans h1 (h.1 b hb2)
    · rw [if_neg h1]
      by_cases h2 : k = k1
      · rw [if_pos h2, keys_cons, List.sorted_cons]
        exact h
      · rw [if_neg h2, keys_cons, List.sorted_cons]
        have hk1 : k1 < k := lt_of_le_of_ne (le_of_not_lt h1) (fun he => h2 he.symm)
        refine ⟨?_, ih h.2⟩
        intro b hb
        rcases (mem_keys_mapPush rest k b e).mp hb with rfl | hb2
        · exact hk1
        · exact h.1 b hb2

theorem findBucket_not_mem {κ α : Type} [DecidableEq κ] (m : List (κ × List α)) (k : κ)
    (h : k ∉ keys m) : findBucket m k = [] := by
  induction m with
  | nil => rfl
  | cons kv rest ih =>
    obtain ⟨k1, v⟩ := kv
    rw [keys_cons, List.mem_cons, not_or] at h
    unfold findBucket
    rw [if_neg h.1, ih h.2]

theorem findBucket_mapPush_self {κ α : Type} [LinearOrder κ] (m : List (κ × List α))
    (k : κ) (e : α) (h : List.Sorted (· < ·) (keys m)) :
    findBucket (mapPush m k e) k = (findBucket m k).concat e := by
  induction m with
  | nil => simp [mapPush, findBucket]
  | cons kv rest ih =>
    obtain ⟨k1, v⟩ := kv
    rw [keys_cons, List.sorted_cons] at h
    unfold mapPush
    by_cases h1 : k < k1
    · rw [if_pos h1]
      have hne : k ≠ k1 := ne_of_lt h1
      have hnm : k ∉ keys rest := by
        intro hk
        exact absurd (lt_trans h1 (h.1 k hk)) (lt_irrefl k)
      show (if k = k then [e] else findBucket ((k1, v) :: rest) k) = _
      rw [if_pos rfl]
      show _ = (if k = k1 then v else findBucket rest k).concat e
      rw [if_neg hne, findBucket_not_mem rest k hnm]
      rfl
    · rw [if_neg h1]
      by_cases h2 : k = k1
      · rw [if_pos h2]
        show (if k = k1 then v.concat e else findBucket rest k) = _
        rw [if_pos h2]
        show _ = (if k = k1 then v else findBucket rest k).concat e
        rw [if_pos h2]
      · rw [if_neg h2]
        show (if k = k1 then v else findBucket (mapPush rest k e) k) = _
        rw [if_neg h2, ih h.2]
        show _ = (if k = k1 then v else findBucket rest k).concat e
        rw [if_neg h2]

theorem findBucket_mapPush_ne {κ α : Type} [LinearOrder κ] (m : List (κ × List α))
    (k k0 : κ) (e : α) (hne : k0 ≠ k) :
    findBucket (mapPush m k e) k0 = findBucket m k0 := by
  induction m with
  | nil => simp [mapPush, findBucket, hne]
  | cons kv rest ih =>
    obtain ⟨k1, v⟩ := kv
    unfold mapPush
    by_cases h1 : k < k1
    · rw [if_pos h1]
      show (if k0 = k then [e] else findBucket ((k1, v) :: rest) k0) = _
      rw [if_neg hne]
    · rw [if_neg h1]
      by_cases h2 : k = k1
      · rw [if_pos h2]
        have hne1 : k0 ≠ k1 := h2 ▸ hne
        show (if k0 = k1 then v.concat e else findBucket rest k0) = _
        rw [if_neg hne1]
        show _ = (if k0 = k1 then v else findBucket rest k0)
        rw [if_neg hne1]
      · rw [if_neg h2]
        show (if k0 = k1 then v else findBucket (mapPush rest k e) k0) = _
        by_cases h3 : k0 = k1
        · rw [if_pos h3]
          show _ = (if k0 = k1 then v else findBucket rest k0)
          rw [if_pos h3]
        · rw [if_neg h3, ih]
          show _ = (if k0 = k1 then v else findBucket rest k0)
          rw [if_neg h3]

theorem findBucket_groupByAux {κ α : Type} [LinearOrder κ] (key : α → κ) (l : List α)
    (m : List (κ × List α)) (hm : List.Sorted (· < ·) (keys m)) (k : κ) :
    findBucket (l.foldl (fun result elem => mapPush result (key elem) elem) m) k
      = findBucket m k ++ l.filter (fun e => decide (key e = k)) := by
  induction l generalizing m with
  | nil => simp
  | cons x xs ih =>
    rw [List.foldl_cons, ih _ (sorted_keys_mapPush m (key x) x hm), List.filter_cons]
    by_cases h : key x = k
    · rw [h, findBucket_mapPush_self m k x hm]
      simp [h, List.concat_eq_append]
    · rw [findBucket_mapPush_ne m (key x) k x (fun he => h he.symm)]
      simp [h]

theorem sorted_keys_groupByAux {κ α : Type} [LinearOrder κ] (key : α → κ) (l : List α)
    (m : List (κ × List α)) (hm : List.Sorted (· < ·) (keys m)) :
    List.Sorted (· < ·)
      (keys (l.foldl (fun result elem => mapPush result (key elem) elem) m)) := by
  induction l generalizing m with
  | nil => exact hm
  | cons x xs ih => exact ih _ (sorted_keys_mapPush m (key x) x hm)

theorem sorted_keys_groupBy {κ α : Type} [LinearOrder κ] (l : List α) (key : α → κ) :
    List.Sorted (· < ·) (keys (GroupBy l key)) :=
  sorted_keys_groupByAux key l [] (by simp [keys_nil])

theorem findBucket_groupBy {κ α : Type} [LinearOrder κ] (l : List α) (key : α → κ)
    (k : κ) :
    findBucket (GroupBy l key) k = l.filter (fun e => decide (key e = k)) := by
  have h := findBucket_groupByAux key l [] (by simp [keys_nil]) k
  simpa [findBucket] using h

theorem flattenBuckets_cons {κ α : Type} (k : κ) (v : List α) (rest : List (κ × List α)) :
    flattenBuckets ((k, v) :: rest) = v ++ flattenBuckets rest := rfl

theorem flattenBuckets_mapPush {κ α : Type} [LinearOrder κ] (m : List (κ × List α))
    (k : κ) (e : α) :
    (flattenBuckets (mapPush m k e)).Perm (flattenBuckets m ++ [e]) := by
  induction m with
  | nil => simp [mapPush, flattenBuckets]
  | cons kv rest ih =>
    obtain ⟨k1, v⟩ := kv
    unfold mapPush
    by_cases h1 : k < k1
    · rw [if_pos h1, flattenBuckets_cons, flattenBuckets_cons]
      exact List.perm_append_comm
    · rw [if_neg h1]
      by_cases h2 : k = k1
      · rw [if_pos h2, flattenBuckets_cons, flattenBuckets_cons, List.concat_eq_append,
          List.append_assoc, List.append_assoc]
        exact List.Perm.append_left v List.perm_append_comm
      · rw [if_neg h2, flattenBuckets_cons, flattenBuckets_cons, List.append_assoc]
        exact List.Perm.append_left v ih

theorem flattenBuckets_groupByAux {κ α : Type} [LinearOrder κ] (key : α → κ)
    (l : List α) (m : List (κ × List α)) :
    (flattenBuckets (l.foldl (fun result elem => mapPush result (key elem) elem) m)).Perm
      (flattenBuckets m ++ l) := by
  induction l generalizing m with
  | nil => simp
  | cons x xs ih =>
    rw [List.foldl_cons]
    refine (ih (mapPush m (key x) x)).trans ?_
    have h1 : (flattenBuckets (mapPush m (key x) x) ++ xs).Perm
        ((flattenBuckets m ++ [x]) ++ xs) :=
      (flattenBuckets_mapPush m (key x) x).append_right xs
    refine h1.trans ?_
    rw [List.append_assoc, List.singleton_append]

theorem flattenBuckets_groupBy {κ α : Type} [LinearOrder κ] (l : List α) (key : α → κ) :
    (flattenBuckets (GroupBy l key)).Perm l := by
  have h := flattenBuckets_groupByAux key l []
  simpa [flattenBuckets] using h

theorem buckets_ne_nil_mapPush {κ α : Type} [LinearOrder κ] (m : List (κ × List α))
    (k : κ) (e : α) (h : ∀ kv ∈ m, kv.2 ≠ []) :
    ∀ kv ∈ mapPush m k e, kv.2 ≠ [] := by
  induction m with
  | nil =>
    intro kv hkv
    simp only [mapPush, List.mem_singleton] at hkv
    subst hkv
    simp
  | cons kv0 rest ih =>
    obtain ⟨k1, v⟩ := kv0
    intro kv hkv
    unfold mapPush at hkv
    by_cases h1 : k < k1
    · rw [if_pos h1] at hkv
      rcases List.mem_cons.mp hkv with rfl | hkv2
      · simp
      · exact h kv hkv2
    · rw [if_neg h1] at hkv
      by_cases h2 : k = k1
      · rw [if_pos h2] at hkv
        rcases List.mem_cons.mp hkv with rfl | hkv2
        · simp
        · exact h kv (List.mem_cons_of_mem _ hkv2)
      · rw [if_neg h2] at hkv
        rcases List.mem_cons.mp hkv with rfl | hkv2
        · exact h (k1, v) (List.mem_cons_self _ _)
        · exact ih (fun kv2 hkv2b => h kv2 (List.mem_cons_of_mem _ hkv2b)) kv hkv2

theorem buckets_ne_nil_groupByAux {κ α : Type} [LinearOrder κ] (key : α → κ)
    (l : List α) (m : List (κ × List α)) (hm : ∀ kv ∈ m, kv.2 ≠ []) :
    ∀ kv ∈ l.foldl (fun result elem => mapPush result (key elem) elem) m, kv.2 ≠ [] := by
  induction l generalizing m with
  | nil => exact hm
  | cons x xs ih => exact ih _ (buckets_ne_nil_mapPush m (key x) x hm)

theorem buckets_ne_nil_groupBy {κ α : Type} [LinearOrder κ] (l : List α) (key : α → κ) :
    ∀ kv ∈ GroupBy l key, kv.2 ≠ [] :=
  buckets_ne_nil_groupByAux key l [] (by simp)

theorem entry_mem_of_mem_keys {κ α : Type} [DecidableEq κ] (m : List (κ × List α))
    (k : κ) (h : k ∈ keys m) : (k, findBucket m k) ∈ m := by
  induction m with
  | nil => cases h
  | cons kv rest ih =>
    obtain ⟨k1, v⟩ := kv
    rw [keys_cons, List.mem_cons] at h
    unfold findBucket
    by_cases h1 : k = k1
    · rw [if_pos h1]
      subst h1
      exact List.mem_cons_self _ _
    · rw [if_neg h1]
      rcases h with rfl | h2
      · exact absurd rfl h1
      · exact List.mem_cons_of_mem _ (ih h2)

theorem findBucket_of_mem {κ α : Type} [DecidableEq κ] (m : List (κ × List α))
    (kv : κ × List α) (hnd : (keys m).Nodup) (h : kv ∈ m) :
    findBucket m kv.1 = kv.2 := by
  induction m with
  | nil => cases h
  | cons kv0 rest ih =>
    obtain ⟨k1, v⟩ := kv0
    rw [keys_cons, List.nodup_cons] at hnd
    unfold findBucket
    rcases List.mem_cons.mp h with rfl | h2
    · rw [if_pos rfl]
    · by_cases h1 : kv.1 = k1
      · exfalso
        apply hnd.1
        rw [← h1]
        exact List.mem_map_of_mem Prod.fst h2
      · rw [if_neg h1]
        exact ih hnd.2 h2

theorem mem_keys_groupBy {κ α : Type} [LinearOrder κ] (l : List α) (key : α → κ)
    (k : κ) : k ∈ keys (GroupBy l key) ↔ ∃ e ∈ l, key e = k := by
  constructor
  · intro h
    have hmem := entry_mem_of_mem_keys _ k h
    have hne := buckets_ne_nil_groupBy l key _ hmem
    rw [findBucket_groupBy] at hne
    have hx : ¬∀ a ∈ l, ¬decide (key a = k) = true := fun hall =>
      hne (List.filter_eq_nil_iff.mpr hall)
    push_neg at hx
    obtain ⟨a, ha, hd⟩ := hx
    exact ⟨a, ha, of_decide_eq_true hd⟩
  · rintro ⟨e, he, hk⟩
    by_contra hk2
    have hnil := findBucket_not_mem _ k hk2
    rw [findBucket_groupBy] at hnil
    have := List.filter_eq_nil_iff.mp hnil e he
    exact this (decide_eq_true hk)

/-- C2: `GroupBy S key` maps each key k to exactly the elements of S
whose key is k, in their original relative order (so every element of a
bucket keyed k has key k); every map entry is such a bucket; the map's
keys are strictly ascending; and the concatenation of all buckets is a
permutation of S (equal to S as a multiset). -/
theorem C2_groupBy_spec {κ α : Type} [LinearOrder κ] (S : List α) (key : α → κ) :
    (∀ k, findBucket (GroupBy S key) k = S.filter (fun e => decide (key e = k))) ∧
    (∀ kv ∈ GroupBy S key, kv.2 = S.filter (fun e => decide (key e = kv.1))) ∧
    List.Sorted (· < ·) (keys (GroupBy S key)) ∧
    (flattenBuckets (GroupBy S key)).Perm S := by
  refine ⟨findBucket_groupBy S key, ?_, sorted_keys_groupBy S key,
    flattenBuckets_groupBy S key⟩
  intro kv hkv
  rw [← findBucket_groupBy S key kv.1]
  exact (findBucket_of_mem _ kv (sorted_keys_groupBy S key).nodup hkv).symm

/-- C2 witness: the claim instantiated at the test suite's input, pairs
grouped by first component. -/
theorem C2_groupBy_spec_witness :
    (∀ k, findBucket (GroupBy [(5, 7), (3, 9), (5, 4), (2, 6)] (Prod.fst (α := ℕ) (β := ℕ))) k
      = List.filter (fun e => decide (e.1 = k)) [(5, 7), (3, 9), (5, 4), (2, 6)]) ∧
    (∀ kv ∈ GroupBy [(5, 7), (3, 9), (5, 4), (2, 6)] (Prod.fst (α := ℕ) (β := ℕ)),
      kv.2 = List.filter (fun e => decide (e.1 = kv.1)) [(5, 7), (3, 9), (5, 4), (2, 6)]) ∧
    List.Sorted (· < ·)
      (keys (GroupBy [(5, 7), (3, 9), (5, 4), (2, 6)] (Prod.fst (α := ℕ) (β := ℕ)))) ∧
    (flattenBuckets
      (GroupBy [(5, 7), (3, 9), (5, 4), (2, 6)] (Prod.fst (α := ℕ) (β := ℕ)))).Perm
      [(5, 7), (3, 9), (5, 4), (2, 6)] :=
  C2_groupBy_spec [(5, 7), (3, 9), (5, 4), (2, 6)] Prod.fst

/-! Lemmas about map lookup, map assignment, and Join. -/

theorem lookupKV_eq_none {κ ν : Type} [DecidableEq κ] (m : List (κ × ν)) (k : κ) :
    lookupKV m k = none ↔ k ∉ keys m := by
  induction m with
  | nil => simp [lookupKV, keys_nil]
  | cons kv rest ih =>
    obtain ⟨k1, v⟩ := kv
    rw [keys_cons]
    unfold lookupKV
    by_cases h : k = k1
    · rw [if_pos h]
      simp [h]
    · rw [if_neg h]
      simp [h, ih]

theorem lookupKV_mapSet {κ ν : Type} [LinearOrder κ] (m : List (κ × ν)) (k k0 : κ)
    (v : ν) : lookupKV (mapSet m k v) k0 = if k0 = k then some v else lookupKV m k0 := by
  induction m with
  | nil =>
    show (if k0 = k then some v else lookupKV [] k0) = _
    rfl
  | cons kv rest ih =>
    obtain ⟨k1, v1⟩ := kv
    unfold mapSet
    by_cases h1 : k < k1
    · rw [if_pos h1]
      show (if k0 = k then some v else lookupKV ((k1, v1) :: rest) k0) = _
      rfl
    · rw [if_neg h1]
      by_cases h2 : k = k1
      · rw [if_pos h2]
        subst h2
        show (if k0 = k then some v else lookupKV rest k0) = _
        by_cases h3 : k0 = k
        · rw [if_pos h3, if_pos h3]
        · rw [if_neg h3, if_neg h3]
          show _ = (if k0 = k then some v1 else lookupKV rest k0)
          rw [if_neg h3]
      · rw [if_neg h2]
        show (if k0 = k1 then some v1 else lookupKV (mapSet rest k v) k0) = _
        by_cases h3 : k0 = k1
        · rw [if_pos h3]
          have hk : k0 ≠ k := fun he => h2 (he ▸ h3 ▸ rfl)
          rw [if_neg hk]
          show _ = (if k0 = k1 then some v1 else lookupKV rest k0)
          rw [if_pos h3]
        · rw [if_neg h3, ih]
          by_cases h4 : k0 = k
          · rw [if_pos h4, if_pos h4]
          · rw [if_neg h4, if_neg h4]
            show _ = (if k0 = k1 then some v1 else lookupKV rest k0)
            rw [if_neg h3]

theorem lookupKV_join_foldl {κ α β : Type} [LinearOrder κ] (g2 : List (κ × List β))
    (entries : List (κ × List α)) (hnd : (keys entries).Nodup)
    (m : List (κ × (List α × List β))) (k : κ) :
    lookupKV (entries.foldl (fun result elem =>
        if elem.1 ∈ keys g2
          then mapSet result elem.1 (elem.2, findBucket g2 elem.1)
          else result) m) k
      = if k ∈ keys entries ∧ k ∈ keys g2
          then some (findBucket entries k, findBucket g2 k)
          else lookupKV m k := by
  induction entries generalizing m with
  | nil => simp [keys_nil]
  | cons kv rest ih =>
    obtain ⟨k0, v0⟩ := kv
    rw [keys_cons, List.nodup_cons] at hnd
    simp only [List.foldl_cons]
    rw [ih hnd.2]
    by_cases hk : k = k0
    · subst hk
      rw [if_neg (fun hc => hnd.1 hc.1)]
      by_cases hg : k ∈ keys g2
      · rw [if_pos hg, lookupKV_mapSet, if_pos rfl, keys_cons,
          if_pos ⟨List.mem_cons_self _ _, hg⟩]
        show some (v0, findBucket g2 k) = some (findBucket ((k, v0) :: rest) k, findBucket g2 k)
        have : findBucket ((k, v0) :: rest) k = v0 := by
          show (if k = k then v0 else findBucket rest k) = v0
          rw [if_pos rfl]
        rw [this]
      · rw [if_neg hg, keys_cons, if_neg (fun hc => hg hc.2)]
    · have hfb : findBucket ((k0, v0) :: rest) k = findBucket rest k := by
        show (if k = k0 then v0 else findBucket rest k) = findBucket rest k
        rw [if_neg hk]
      have hlk : lookupKV
          (if k0 ∈ keys g2 then mapSet m k0 (v0, findBucket g2 k0) else m) k
          = lookupKV m k := by
        by_cases hg : k0 ∈ keys g2
        · rw [if_pos hg, lookupKV_mapSet, if_neg hk]
        · rw [if_neg hg]
      rw [hlk, keys_cons]
      by_cases hrest : k ∈ keys rest <;> by_cases hg2 : k ∈ keys g2
      · rw [if_pos ⟨hrest, hg2⟩, if_pos ⟨List.mem_cons_of_mem _ hrest, hg2⟩, hfb]
      · rw [if_neg (fun hc => hg2 hc.2), if_neg (fun hc => hg2 hc.2)]
      · rw [if_neg (fun hc => hrest hc.1), if_neg (fun hc => ?_)]
        rcases List.mem_cons.mp hc.1 with he | hm2
        · exact hk he
        · exact hrest hm2
      · rw [if_neg (fun hc => hg2 hc.2), if_neg (fun hc => hg2 hc.2)]

theorem lookupKV_join {κ α β : Type} [LinearOrder κ] (S1 : List α) (S2 : List β)
    (f1 : α → κ) (f2 : β → κ) (k : κ) :
    lookupKV (Join S1 S2 f1 f2) k
      = if k ∈ keys (GroupBy S1 f1) ∧ k ∈ keys (GroupBy S2 f2)
          then some (findBucket (GroupBy S1 f1) k, findBucket (GroupBy S2 f2) k)
          else none := by
  have h := lookupKV_join_foldl (GroupBy S2 f2) (GroupBy S1 f1)
    (sorted_keys_groupBy S1 f1).nodup ([] : List (κ × (List α × List β))) k
  exact h

/-- C3: the keys of `Join S1 S2 k1 k2` are exactly the keys common to
the groupings of the two inputs (equivalently, the values taken by k1 on
S1 and by k2 on S2 simultaneously; keys present in only one input do not
appear), and each common key maps to the pair of the elements of S1 with
that k1-key and the elements of S2 with that k2-key, each in original
order. -/
theorem C3_join_spec {κ α β : Type} [LinearOrder κ] (S1 : List α) (S2 : List β)
    (k1 : α → κ) (k2 : β → κ) :
    (∀ k, k ∈ keys (Join S1 S2 k1 k2) ↔
      (k ∈ keys (GroupBy S1 k1) ∧ k ∈ keys (GroupBy S2 k2))) ∧
    (∀ k, k ∈ keys (Join S1 S2 k1 k2) ↔
      ((∃ e ∈ S1, k1 e = k) ∧ (∃ e ∈ S2, k2 e = k))) ∧
    (∀ k, k ∈ keys (GroupBy S1 k1) → k ∈ keys (GroupBy S2 k2) →
      lookupKV (Join S1 S2 k1 k2) k
        = some (S1.filter (fun e => decide (k1 e = k)),
            S2.filter (fun e => decide (k2 e = k)))) := by
  have hmain : ∀ k, k ∈ keys (Join S1 S2 k1 k2) ↔
      (k ∈ keys (GroupBy S1 k1) ∧ k ∈ keys (GroupBy S2 k2)) := by
    intro k
    constructor
    · intro h
      by_contra hc
      have hnone : lookupKV (Join S1 S2 k1 k2) k = none := by
        rw [lookupKV_join, if_neg hc]
      exact (lookupKV_eq_none _ k).mp hnone h
    · intro hc
      by_contra h
      have hnone := (lookupKV_eq_none (Join S1 S2 k1 k2) k).mpr h
      rw [lookupKV_join, if_pos hc] at hnone
      cases hnone
  refine ⟨hmain, ?_, ?_⟩
  · intro k
    rw [hmain k, mem_keys_groupBy, mem_keys_groupBy]
  · intro k h1 h2
    rw [lookupKV_join, if_pos ⟨h1, h2⟩, findBucket_groupBy, findBucket_groupBy]

/-- C3 witness: the claim instantiated at the test suite's inputs,
joined on the second components. -/
theorem C3_join_spec_witness :
    (∀ k, k ∈ keys (Join [(1, 4), (3, 4), (2, 9), (2, 7), (12, 1)]
        [(2, 1), (4, 4), (5, 1), (2, 8), (3, 6)]
        (Prod.snd (α := ℕ) (β := ℕ)) (Prod.snd (α := ℕ) (β := ℕ))) ↔
      (k ∈ keys (GroupBy [(1, 4), (3, 4), (2, 9), (2, 7), (12, 1)]
          (Prod.snd (α := ℕ) (β := ℕ))) ∧
        k ∈ keys (GroupBy [(2, 1), (4, 4), (5, 1), (2, 8), (3, 6)]
          (Prod.snd (α := ℕ) (β := ℕ))))) ∧
    (∀ k, k ∈ keys (Join [(1, 4), (3, 4), (2, 9), (2, 7), (12, 1)]
        [(2, 1), (4, 4), (5, 1), (2, 8), (3, 6)]
        (Prod.snd (α := ℕ) (β := ℕ)) (Prod.snd (α := ℕ) (β := ℕ))) ↔
      ((∃ e ∈ [(1, 4), (3, 4), (2, 9), (2, 7), (12, 1)], e.2 = k) ∧
        (∃ e ∈ [(2, 1), (4, 4), (5, 1), (2, 8), (3, 6)], e.2 = k))) ∧
    (∀ k, k ∈ keys (GroupBy [(1, 4), (3, 4), (2, 9), (2, 7), (12, 1)]
        (Prod.snd (α := ℕ) (β := ℕ))) →
      k ∈ keys (GroupBy [(2, 1), (4, 4), (5, 1), (2, 8), (3, 6)]
        (Prod.snd (α := ℕ) (β := ℕ))) →
      lookupKV (Join [(1, 4), (3, 4), (2, 9), (2, 7), (12, 1)]
          [(2, 1), (4, 4), (5, 1), (2, 8), (3, 6)]
          (Prod.snd (α := ℕ) (β := ℕ)) (Prod.snd (α := ℕ) (β := ℕ))) k
        = some (List.filter (fun e => decide (e.2 = k))
              [(1, 4), (3, 4), (2, 9), (2, 7), (12, 1)],
            List.filter (fun e => decide (e.2 = k))
              [(2, 1), (4, 4), (5, 1), (2, 8), (3, 6)])) :=
  C3_join_spec [(1, 4), (3, 4), (2, 9), (2, 7), (12, 1)]
    [(2, 1), (4, 4), (5, 1), (2, 8), (3, 6)] Prod.snd Prod.snd

/-! Lemmas about the lazy deduplicating generator. -/

theorem distinctLazyGo_sublist {α : Type} [DecidableEq α] (l : List α) :
    ∀ seen, List.Sublist (distinctLazyGo l seen) l := by
  induction l with
  | nil => intro seen; exact List.Sublist.refl _
  | cons x xs ih =>
    intro seen
    unfold distinctLazyGo
    by_cases h : x ∈ seen
    · rw [if_pos h]
      exact (ih seen).trans (List.sublist_cons_self x xs)
    · rw [if_neg h]
      exact (ih (seen.concat x)).cons₂ x

theorem mem_distinctLazyGo {α : Type} [DecidableEq α] (l : List α) :
    ∀ seen z, z ∈ distinctLazyGo l seen ↔ z ∈ l ∧ z ∉ seen := by
  induction l with
  | nil => intro seen z; simp [distinctLazyGo]
  | cons x xs ih =>
    intro seen z
    unfold distinctLazyGo
    by_cases h : x ∈ seen
    · rw [if_pos h, ih seen z]
      constructor
      · rintro ⟨hz, hs⟩
        exact ⟨List.mem_cons_of_mem x hz, hs⟩
      · rintro ⟨hz, hs⟩
        rcases List.mem_cons.mp hz with rfl | hz2
        · exact absurd h hs
        · exact ⟨hz2, hs⟩
    · rw [if_neg h]
      rw [List.mem_cons, ih (seen.concat x) z]
      rw [List.concat_eq_append]
      constructor
      · rintro (rfl | ⟨hz, hs⟩)
        · exact ⟨List.mem_cons_self z xs, h⟩
        · rw [List.mem_append, List.mem_singleton] at hs
          push_neg at hs
          exact ⟨List.mem_cons_of_mem x hz, hs.1⟩
      · rintro ⟨hz, hs⟩
        rcases List.mem_cons.mp hz with rfl | hz2
        · exact Or.inl rfl
        · by_cases hzx : z = x
          · exact Or.inl hzx
          · refine Or.inr ⟨hz2, ?_⟩
            rw [List.mem_append, List.mem_singleton]
            push_neg
            exact ⟨hs, hzx⟩

theorem distinctLazyGo_nodup {α : Type} [DecidableEq α] (l : List α) :
    ∀ seen, (distinctLazyGo l seen).Nodup := by
  induction l with
  | nil => intro seen; simp [distinctLazyGo]
  | cons x xs ih =>
    intro seen
    unfold distinctLazyGo
    by_cases h : x ∈ seen
    · rw [if_pos h]
      exact ih seen
    · rw [if_neg h]
      rw [List.nodup_cons]
      refine ⟨?_, ih (seen.concat x)⟩
      intro hx
      have := ((mem_distinctLazyGo xs (seen.concat x) x).mp hx).2
      rw [List.concat_eq_append, List.mem_append, List.mem_singleton] at this
      push_neg at this
      exact this.2 rfl

theorem distinctLazyGo_eq_specFirstSeen {α : Type} [DecidableEq α] (l : List α) :
    ∀ seen, distinctLazyGo l seen
      = specFirstSeen (l.filter (fun a => decide (a ∉ seen))) := by
  induction l with
  | nil =>
    intro seen
    rw [List.filter_nil, specFirstSeen]
    rfl
  | cons x xs ih =>
    intro seen
    rw [List.filter_cons]
    unfold distinctLazyGo
    by_cases h : x ∈ seen
    · rw [if_pos h, if_neg (by simp [h]), ih seen]
    · rw [if_neg h, if_pos (by simp [h]), specFirstSeen, ih (seen.concat x)]
      congr 1
      rw [List.filter_filter]
      congr 1
      apply List.filter_congr
      intro a _
      by_cases h1 : a = x <;> by_cases h2 : a ∈ seen <;>
        simp [h1, h2, List.concat_eq_append]

/-- C6: fully consuming `DistinctLazy S` yields exactly the first
occurrence of each distinct value of S, in the original relative order
of those first occurrences: the stream equals the spec-side
first-seen-unique sequence `specFirstSeen S`, has no duplicates, is a
sublist of S (order preserved), and holds exactly the values of S. -/
theorem C6_distinctLazy_spec {α : Type} [DecidableEq α] (S : List α) :
    DistinctLazy S = specFirstSeen S ∧
    (DistinctLazy S).Nodup ∧
    List.Sublist (DistinctLazy S) S ∧
    (∀ x, x ∈ DistinctLazy S ↔ x ∈ S) := by
  refine ⟨?_, distinctLazyGo_nodup S [], distinctLazyGo_sublist S [], ?_⟩
  · rw [show DistinctLazy S = distinctLazyGo S [] from rfl,
      distinctLazyGo_eq_specFirstSeen S []]
    congr 1
    apply List.filter_eq_self.mpr
    intro a _
    simp
  · intro x
    rw [show DistinctLazy S = distinctLazyGo S [] from rfl, mem_distinctLazyGo S [] x]
    simp

end cql
